import Mathlib

/-!
Verification of the caption-driven media-editing pipeline
(whatsappbot_news): shallow embedding of the caption classifier
(processors/captions.py), the center-crop helper (processors/crop.py),
the title wrapper (processors/text_render.py), the configuration merge
(config_loader.py, generate_image.py), the overlay processors
(processors/logo.py, processors/watermark.py, processors/big_text.py)
and the edition/filename logic of generate_image.py.

Python strings are embedded as List Char; machine integers as Int or Nat;
Python floats as exact rationals; fallible code as Except.
-/

deriving instance DecidableEq for Except

/-- Whitespace test used by the embeddings of Python str.strip and
str.split (Python splits and strips on whitespace runs). -/
def isSpaceChar (c : Char) : Bool :=
  c.isWhitespace

/-- Embedding of Python str.lstrip: drop leading whitespace. -/
def lstrip (s : List Char) : List Char :=
  s.dropWhile isSpaceChar

/-- Embedding of Python str.rstrip: drop trailing whitespace. -/
def rstrip (s : List Char) : List Char :=
  (s.reverse.dropWhile isSpaceChar).reverse

/-- Embedding of Python str.strip: drop leading and trailing whitespace. -/
def pyStrip (s : List Char) : List Char :=
  rstrip (lstrip s)

/-- Embedding of Python str.lower (character-wise). -/
def pyLower (s : List Char) : List Char :=
  s.map Char.toLower

/-- Embedding of Python str.upper (character-wise). -/
def pyUpper (s : List Char) : List Char :=
  s.map Char.toUpper

/-- Embedding of Python caption.split(maxsplit=1): first
whitespace-delimited token, and the remainder after the separating
whitespace run (empty when there is no second part).  In
processors/captions.py the big branch reads parts = caption.split(maxsplit=1)
and uses parts[1] when it exists; parts[1] is exactly the second
component here when it is nonempty. -/
def splitFirstRest (caption : List Char) : List Char × List Char :=
  let s1 := caption.dropWhile isSpaceChar
  let tok := s1.takeWhile (fun c => !isSpaceChar c)
  let rest := (s1.dropWhile (fun c => !isSpaceChar c)).dropWhile isSpaceChar
  (tok, rest)

/-- Result of processors/captions.py classify: the kind string together
with the optional value of the "text" key of the extra dict (none models
an extra dict without a "text" key, some t models a "text" entry t). -/
structure ClassifyResult where
  kind : List Char
  text : Option (List Char)
deriving DecidableEq, Repr

/-- Embedding of processors/captions.py classify.  Follows the source
line by line: empty caption gives unknown; cap is the stripped,
lowercased caption; exact matches logo and watermark; prefix match big
extracts the trailing words of the original caption via
caption.split(maxsplit=1); prefix matches recorte and blur return an
empty extra dict; anything else is free text carrying the original
caption. -/
def classify (caption : List Char) : ClassifyResult :=
  if caption = [] then ⟨"unknown".toList, none⟩
  else
    let cap := pyLower (pyStrip caption)
    if cap = "logo".toList then ⟨"logo".toList, none⟩
    else if cap = "watermark".toList then ⟨"watermark".toList, none⟩
    else if "big".toList.isPrefixOf cap then
      let rest := (splitFirstRest caption).2
      ⟨"bigtext".toList, some (if rest = [] then [] else pyStrip rest)⟩
    else if "recorte".toList.isPrefixOf cap then ⟨"recorte".toList, none⟩
    else if "blur".toList.isPrefixOf cap then ⟨"blur".toList, none⟩
    else ⟨"text".toList, some caption⟩

/-- Python float truncation int(q), embedded over exact rationals:
truncation toward zero. -/
def pyTrunc (q : ℚ) : ℤ :=
  if 0 ≤ q then ⌊q⌋ else ⌈q⌉

/-- Python integer floor division a // b. -/
def pyFloorDiv (a b : ℤ) : ℤ :=
  Int.fdiv a b

/-- A PIL image at the level of observable geometry: width, height and
color mode.  Pixel contents are irrelevant to the claims settled here. -/
structure Img where
  w : ℕ
  h : ℕ
  mode : List Char
deriving DecidableEq, Repr

/-- PIL Image.convert: changes the mode, keeps the size. -/
def Img.convert (img : Img) (m : List Char) : Img :=
  ⟨img.w, img.h, m⟩

/-- PIL Image.copy: identical image. -/
def Img.copy (img : Img) : Img :=
  img

/-- PIL Image.crop((left, top, right, bottom)): the result measures
(right - left) by (bottom - top). -/
def Img.crop (img : Img) (left top right bottom : ℤ) : Img :=
  ⟨(right - left).toNat, (bottom - top).toNat, img.mode⟩

/-- PIL Image.resize((w, h)): the result has exactly the requested size. -/
def Img.resize (img : Img) (w h : ℕ) : Img :=
  ⟨w, h, img.mode⟩

/-- PIL Image.filter (for example GaussianBlur): size preserving. -/
def Img.filterBlur (img : Img) : Img :=
  img

/-- PIL Image.alpha_composite(overlay, dest=(x, y)): raises ValueError on
a negative destination, otherwise composites in place; the canvas keeps
its size (an overlay running past the border is clipped). -/
def Img.alphaComposite (base _overlay : Img) (x y : ℤ) : Except (List Char) Img :=
  if x < 0 ∨ y < 0 then Except.error "ValueError".toList
  else Except.ok base

/-- Embedding of processors/crop.py crop_center_aspect, exposing the crop
box (left, top, right, bottom) handed to img.crop.  current_ratio = w / h;
when it exceeds target_ratio the sides are cut: new_width = int(h *
target_ratio), left = (w - new_width) // 2, box (left, 0, left +
new_width, h); otherwise top and bottom are cut symmetrically. -/
def crop_center_aspect_box (img : Img) (target_ratio : ℚ) : ℤ × ℤ × ℤ × ℤ :=
  let w := img.w
  let h := img.h
  if (w : ℚ) / (h : ℚ) > target_ratio then
    let new_width := pyTrunc ((h : ℚ) * target_ratio)
    let left := pyFloorDiv ((w : ℤ) - new_width) 2
    (left, 0, left + new_width, (h : ℤ))
  else
    let new_height := pyTrunc ((w : ℚ) / target_ratio)
    let top := pyFloorDiv ((h : ℤ) - new_height) 2
    (0, top, (w : ℤ), top + new_height)

/-- Embedding of processors/crop.py crop_center_aspect: crop the image to
the box computed above. -/
def crop_center_aspect (img : Img) (target_ratio : ℚ) : Img :=
  let b := crop_center_aspect_box img target_ratio
  img.crop b.1 b.2.1 b.2.2.1 b.2.2.2

/-- Embedding of generate_image.py _compose_title_and_category at the
geometry level: img = base.copy(), then draw.text calls mutate the copy
in place; the canvas size and mode are never changed. -/
def compose_title_and_category (base : Img) : Img :=
  base.copy

/-- The slice of an edition configuration read by generate_image.py
_apply_edition: the mode string (a missing or empty value falls back to
recorte via the Python or-operator).  The text and assets sub-maps and
the blur radius only feed the size-preserving drawing and blur. -/
structure EditionCfg where
  mode : Option (List Char)
deriving DecidableEq, Repr

/-- Embedding of generate_image.py _apply_edition: mode = (cfg.get("mode")
or "recorte").lower(); the blur mode Gaussian-blurs the base before
composing title and category, every other mode (recorte included)
composes directly on the base image.  No branch crops, resizes or reads
output.width / output.height. -/
def apply_edition (base : Img) (cfg : EditionCfg) : Img :=
  let mode := pyLower (match cfg.mode with
    | none => "recorte".toList
    | some s => if s = [] then "recorte".toList else s)
  if mode = "blur".toList then compose_title_and_category base.filterBlur
  else compose_title_and_category base

/-- Embedding of generate_image.py _save_to_bytes, restricted to the
encoding format it selects: fmt = (format_hint or "JPEG").upper(), forced
to PNG when the image mode is RGBA or LA. -/
def save_to_bytes_fmt (mode : List Char) (format_hint : List Char) : List Char :=
  let fmt := pyUpper (if format_hint = [] then "JPEG".toList else format_hint)
  if mode = "RGBA".toList ∨ mode = "LA".toList then "PNG".toList else fmt

/-- Embedding of the filename construction of generate_from_media in
generate_image.py: every branch builds kind-suffix.jpg with a literal
jpg extension (the suffix stands for the timestamp-uuid pair of
_unique_suffix). -/
def media_filename (kind suffix : List Char) : List Char :=
  kind ++ "-".toList ++ suffix ++ ".jpg".toList

/-- Embedding of the edition loop of generate_image.py
generate_all_from_link (lines 243-254): each edition is processed inside
a try block; a success is appended to the results, a failure is logged
and skipped.  The per-edition body (_apply_edition, _save_to_bytes,
filename) is abstracted as an injected fallible function. -/
def generate_all_loop {α β ε : Type} (process : α → Except ε β) (editions : List α) : List β :=
  editions.foldl
    (fun results ed =>
      match process ed with
      | Except.ok r => results ++ [r]
      | Except.error _ => results)
    []

/-- Embedding of processors/__init__.py ensure_rgba. -/
def ensure_rgba (img : Img) : Img :=
  if img.mode = "RGBA".toList then img else img.convert "RGBA".toList

/-- Embedding of processors/__init__.py ensure_rgb. -/
def ensure_rgb (img : Img) : Img :=
  if img.mode = "RGB".toList then img else img.convert "RGB".toList

/-- Embedding of processors/logo.py _place_position. -/
def place_position (bw bh ow oh : ℤ) (position : List Char) (m : ℤ) : ℤ × ℤ :=
  let pos := pyLower position
  if pos = "top-left".toList then (m, m)
  else if pos = "top-right".toList then (bw - ow - m, m)
  else if pos = "bottom-left".toList then (m, bh - oh - m)
  else if pos = "bottom-right".toList then (bw - ow - m, bh - oh - m)
  else (pyFloorDiv (bw - ow) 2, pyFloorDiv (bh - oh) 2)

/-- Embedding of processors/logo.py apply at the geometry level.  The
overlay asset loaded from logo_file is an injected image.  Scaling is
relative to the base height: target_h = max(1, int(bh * scale_ratio)),
target_w = int(overlay.width * (target_h / overlay.height)); a zero
overlay height is a Python ZeroDivisionError; alpha_composite rejects a
negative anchor. -/
def logo_apply (img overlay : Img) (scale_ratio : ℚ) (position : List Char) (margin : ℤ) :
    Except (List Char) Img :=
  let base := ensure_rgba img
  let ov := overlay.convert "RGBA".toList
  let bw := base.w
  let bh := base.h
  let target_h : ℤ := max 1 (pyTrunc ((bh : ℚ) * scale_ratio))
  if ov.h = 0 then Except.error "ZeroDivisionError".toList
  else
    let target_w : ℤ := pyTrunc ((ov.w : ℚ) * ((target_h : ℚ) / (ov.h : ℚ)))
    let ov2 := ov.resize target_w.toNat target_h.toNat
    let xy := place_position (bw : ℤ) (bh : ℤ) (ov2.w : ℤ) (ov2.h : ℤ) position margin
    let out := base.copy
    (out.alphaComposite ov2 xy.1 xy.2).map ensure_rgb

/-- Embedding of processors/watermark.py apply at the geometry level.
The watermark asset is an injected image.  wm_width = int(base.width *
scale_ratio); scale = wm_width / watermark.width (ZeroDivisionError on a
zero-width asset); wm_height = int(watermark.height * scale); a negative
resize target is a PIL ValueError.  The opacity branch rescales the
alpha channel and is size neutral.  Tiling composites at non-negative
offsets but range(0, height, 0) raises ValueError when the scaled
watermark height is zero (and the inner range likewise when a row is
entered with zero width); the single-position branch can hand
alpha_composite a negative anchor.  The result is converted back to the
base mode. -/
def watermark_apply (base_img watermark_img : Img) (tile : Bool) (scale_ratio : ℚ)
    (position : List Char) (margin : ℤ) : Except (List Char) Img :=
  let wm0 := watermark_img.convert "RGBA".toList
  let wm_width : ℤ := pyTrunc ((base_img.w : ℚ) * scale_ratio)
  if wm0.w = 0 then Except.error "ZeroDivisionError".toList
  else
    let scale : ℚ := (wm_width : ℚ) / (wm0.w : ℚ)
    let wm_height : ℤ := pyTrunc ((wm0.h : ℚ) * scale)
    if wm_width < 0 ∨ wm_height < 0 then Except.error "ValueError".toList
    else
      let wm := wm0.resize wm_width.toNat wm_height.toNat
      let result := base_img.convert "RGBA".toList
      if tile then
        if wm_height = 0 then Except.error "ValueError: range step zero".toList
        else if 0 < base_img.h ∧ wm_width = 0 then
          Except.error "ValueError: range step zero".toList
        else Except.ok (result.convert base_img.mode)
      else
        let xy :=
          if position = "center".toList then
            (pyFloorDiv ((base_img.w : ℤ) - (wm.w : ℤ)) 2,
             pyFloorDiv ((base_img.h : ℤ) - (wm.h : ℤ)) 2)
          else if position = "top-left".toList then (margin, margin)
          else if position = "top-right".toList then
            ((base_img.w : ℤ) - (wm.w : ℤ) - margin, margin)
          else if position = "bottom-left".toList then
            (margin, (base_img.h : ℤ) - (wm.h : ℤ) - margin)
          else if position = "bottom-right".toList then
            ((base_img.w : ℤ) - (wm.w : ℤ) - margin,
             (base_img.h : ℤ) - (wm.h : ℤ) - margin)
          else
            (pyFloorDiv ((base_img.w : ℤ) - (wm.w : ℤ)) 2,
             pyFloorDiv ((base_img.h : ℤ) - (wm.h : ℤ)) 2)
        (result.alphaComposite wm xy.1 xy.2).map (fun r => r.convert base_img.mode)

/-- Embedding of processors/big_text.py apply at the geometry level:
img = base_img.copy(), the wrapped caption is drawn line by line with
stroke outlining onto the copy (in-place mutation), and the copy is
returned; neither wrapping nor drawing changes the canvas size. -/
def big_text_apply (base : Img) (_text : List Char) : Img :=
  base.copy

/-- Embedding of the text_width helper inside processors/text_render.py
get_title_lines: per character, a non-space character contributes
max(advance + tracking, 1) and a space contributes the advance of the
space glyph; cw is the injected glyph-advance provider standing for
font.getbbox. -/
def textWidth (cw : Char → ℤ) (tracking : ℤ) (s : List Char) : ℤ :=
  (s.map (fun c => if c = ' ' then cw ' ' else max (cw c + tracking) 1)).sum

/-- Embedding of Python str.split() with no separator: whitespace runs
separate the words, no empty words are produced. -/
def pySplit (s : List Char) : List (List Char) :=
  match s with
  | [] => []
  | c :: cs =>
    if isSpaceChar c then pySplit cs
    else (c :: cs.takeWhile (fun d => !isSpaceChar d)) ::
      pySplit (cs.dropWhile (fun d => !isSpaceChar d))
termination_by s.length
decreasing_by
  · simp
  · have h2 : (cs.dropWhile (fun d => !isSpaceChar d)).length ≤ cs.length :=
      (List.dropWhile_suffix _).sublist.length_le
    simp
    omega

/-- Embedding of the while loop of processors/text_render.py
get_title_lines.  State: unconsumed words, accumulated lines, current
line.  The loop runs while words remain and fewer than max_lines - 1
lines are accumulated; a word that fits (after a joining space and
strip) extends the current line, a word that does not fit flushes a
non-empty current line without consuming the word, and a word that
alone overflows an empty current line is forced onto its own line.
Returns (lines, current_line, remaining words). -/
def wrap_loop (tw : List Char → ℤ) (maxW : ℤ) (maxLines : ℕ)
    (words lines : List (List Char)) (current : List Char) :
    List (List Char) × List Char × List (List Char) :=
  match words with
  | [] => (lines, current, [])
  | w :: rest =>
    if hguard : (lines.length : ℤ) < (maxLines : ℤ) - 1 then
      let test := if current = [] then w else pyStrip (current ++ ' ' :: w)
      if tw test ≤ maxW then wrap_loop tw maxW maxLines rest lines test
      else if current = [] then wrap_loop tw maxW maxLines rest (lines ++ [w]) []
      else wrap_loop tw maxW maxLines (w :: rest) (lines ++ [current]) []
    else (lines, current, w :: rest)
termination_by words.length + (maxLines - lines.length)
decreasing_by
  · simp
  · simp
    omega
  · simp
    omega

/-- Embedding of the ellipsis truncation loop of
processors/text_render.py get_title_lines: for i in
range(len(remaining)), the first prefix of i+1 words whose join plus
"..." overflows yields the i-word join plus "..."; if no prefix
overflows the full remaining join is used. -/
def truncate_line (tw : List Char → ℤ) (maxW : ℤ) (remaining : List (List Char)) (i : ℕ) :
    List Char :=
  if _h : i < remaining.length then
    let candidate := List.intercalate [' '] (remaining.take (i + 1)) ++ "...".toList
    if tw candidate > maxW then List.intercalate [' '] (remaining.take i) ++ "...".toList
    else truncate_line tw maxW remaining (i + 1)
  else List.intercalate [' '] remaining
termination_by remaining.length - i
decreasing_by
  omega

/-- Embedding of processors/text_render.py get_title_lines: uppercase
and split the title, run the greedy wrap loop, flush a trailing current
line, then handle the final slot: when exactly max_lines - 1 lines are
packed the joined remainder is appended verbatim if it fits and
ellipsis-truncated otherwise; when fewer lines are packed one empty
line is appended.  The font argument of the source is replaced by the
injected glyph-advance provider cw. -/
def get_title_lines (cw : Char → ℤ) (tracking : ℤ) (title : List Char)
    (maxW : ℤ) (maxLines : ℕ) : List (List Char) :=
  let tw := textWidth cw tracking
  let words := pySplit (pyUpper title)
  let r := wrap_loop tw maxW maxLines words [] []
  let lines1 := if r.2.1 = [] then r.1 else r.1 ++ [r.2.1]
  let lastLine := List.intercalate [' '] r.2.2
  if (lines1.length : ℤ) = (maxLines : ℤ) - 1 then
    if tw lastLine ≤ maxW then lines1 ++ [lastLine]
    else lines1 ++ [truncate_line tw maxW r.2.2 0]
  else if lines1.length < maxLines then lines1 ++ [[]]
  else lines1

/-- A Python/JSON value as seen by the configuration merge: either a
mapping (insertion-ordered key/value list, keys unique as in a Python
dict) or a non-mapping value, abstracted to an integer payload. -/
inductive PyVal where
  | atom : ℤ → PyVal
  | dict : List (List Char × PyVal) → PyVal
deriving Repr

/-- Python dict lookup d[k] restricted to present keys: first matching
entry (a Python dict has at most one). -/
def dictLookup : List (List Char × PyVal) → List Char → Option PyVal
  | [], _ => none
  | (k, v) :: rest, key => if k = key then some v else dictLookup rest key

/-- Python dict assignment d[k] = v: replaces the value of an existing
key in place, otherwise appends the new entry (insertion order). -/
def dictSet : List (List Char × PyVal) → List Char → PyVal → List (List Char × PyVal)
  | [], key, v => [(key, v)]
  | (k, w) :: rest, key, v =>
    if k = key then (key, v) :: rest else (k, w) :: dictSet rest key v

/-- Embedding of config_loader.py merge_dict (and of the identical
generate_image.py _deep_merge): result = base.copy(); for every
key/value of the override, recurse when both the override value and the
present base value are mappings, otherwise assign the override value
wholesale.  The first argument is the accumulating result, initially
the base. -/
def merge_dict (result : List (List Char × PyVal)) (override : List (List Char × PyVal)) :
    List (List Char × PyVal) :=
  match override with
  | [] => result
  | (k, v) :: rest =>
    match v, dictLookup result k with
    | PyVal.dict d, some (PyVal.dict bd) =>
      merge_dict (dictSet result k (PyVal.dict (merge_dict bd d))) rest
    | _, _ => merge_dict (dictSet result k v) rest
termination_by sizeOf override
decreasing_by
  all_goals first
  | (simp; omega)
  | simp
  | omega

/-- The value the merge assigns for an override entry v given the base
value currently present (if any): a recursive merge when both are
mappings, the override value wholesale otherwise. -/
def mergedValue (baseVal : Option PyVal) (v : PyVal) : PyVal :=
  match v, baseVal with
  | PyVal.dict d, some (PyVal.dict bd) => PyVal.dict (merge_dict bd d)
  | _, _ => v

section Lemmas

/-- A list is a Boolean prefix of itself followed by anything. -/
theorem isPrefixOf_append_self (l t : List Char) : l.isPrefixOf (l ++ t) = true := by
  induction l with
  | nil => simp [List.isPrefixOf]
  | cons a as ih => simp [List.isPrefixOf, ih]

/-- A Boolean prefix can be peeled off as an append. -/
theorem eq_append_of_isPrefixOf {l s : List Char} (h : l.isPrefixOf s = true) :
    ∃ t, s = l ++ t := by
  induction l generalizing s with
  | nil => exact ⟨s, rfl⟩
  | cons a as ih =>
    cases s with
    | nil => simp [List.isPrefixOf] at h
    | cons b bs =>
      simp only [List.isPrefixOf, Bool.and_eq_true, beq_iff_eq] at h
      obtain ⟨t, ht⟩ := ih h.2
      exact ⟨t, by rw [h.1, ht]; rfl⟩

/-- Dropping leading whitespace of a string headed by a non-space
character does nothing. -/
theorem lstrip_cons_of_nonspace {c : Char} (s : List Char) (h : isSpaceChar c = false) :
    lstrip (c :: s) = c :: s := by
  simp [lstrip, List.dropWhile_cons, h]

/-- rstrip distributes over append: either the right part strips away
completely or it absorbs all the stripping. -/
theorem rstrip_append (a b : List Char) :
    rstrip (a ++ b) = if rstrip b = [] then rstrip a else a ++ rstrip b := by
  unfold rstrip
  rw [List.reverse_append, List.dropWhile_append]
  by_cases hb : (b.reverse.dropWhile isSpaceChar).isEmpty
  · rw [if_pos hb]
    rw [if_pos]
    rw [List.isEmpty_iff] at hb
    simp [hb]
  · rw [if_neg hb]
    rw [List.isEmpty_iff] at hb
    rw [if_neg]
    · simp
    · simp [hb]

/-- Dropping a prefix of whitespace is idempotent. -/
theorem lstrip_idem (s : List Char) : lstrip (lstrip s) = lstrip s := by
  induction s with
  | nil => rfl
  | cons c cs ih =>
    by_cases h : isSpaceChar c
    · simp [lstrip, List.dropWhile_cons, h] at ih ⊢
      exact ih
    · simp [lstrip, List.dropWhile_cons, h]

/-- Stripping a string with no whitespace at all does nothing. -/
theorem pyStrip_of_nospace (w : List Char) (h : ∀ c ∈ w, isSpaceChar c = false) :
    pyStrip w = w := by
  have hl : lstrip w = w := by
    cases w with
    | nil => rfl
    | cons c cs => exact lstrip_cons_of_nonspace cs (h c (by simp))
  have hr : rstrip w = w := by
    unfold rstrip
    rw [List.dropWhile_eq_self_iff.mpr]
    · simp
    · intro hx
      have hm : w.reverse.get ⟨0, hx⟩ ∈ w := by
        have := List.get_mem w.reverse 0 hx
        exact (List.mem_reverse).mp this
      simp only [h _ hm]
      simp
  unfold pyStrip
  rw [hl, hr]

end Lemmas

/-- Claim C4 counterexample: the caption "recorte foo" is classified as
recorte with an EMPTY parameter mapping; the claimed text parameter
"foo" is not extracted (the recorte branch of classify returns an empty
extra dict, unlike the big branch). -/
theorem c4_counterexample :
    classify "recorte foo".toList = ⟨"recorte".toList, none⟩ ∧
    (classify "recorte foo".toList).text ≠ some "foo".toList := by
  decide

/-- Claim C4 amended: for every caption whose trimmed, lowercased form
starts with "recorte", classify returns the recorte kind with an empty
parameter mapping (no text parameter at all). -/
theorem c4_recorte_empty_params (c : List Char)
    (h : "recorte".toList.isPrefixOf (pyLower (pyStrip c)) = true) :
    classify c = ⟨"recorte".toList, none⟩ := by
  obtain ⟨t, ht⟩ := eq_append_of_isPrefixOf h
  have hc : c ≠ [] := by
    intro hnil
    rw [hnil] at ht
    simp [pyStrip, lstrip, rstrip, pyLower] at ht
  have hrec : "recorte".toList = ['r', 'e', 'c', 'o', 'r', 't', 'e'] := rfl
  rw [hrec] at ht
  unfold classify
  rw [if_neg hc]
  simp only [ht]
  have h1 : ('r' :: 'e' :: 'c' :: 'o' :: 'r' :: 't' :: 'e' :: [] ++ t : List Char) ≠
      "logo".toList := by
    simp +decide [List.cons_append]
  have h2 : ('r' :: 'e' :: 'c' :: 'o' :: 'r' :: 't' :: 'e' :: [] ++ t : List Char) ≠
      "watermark".toList := by
    simp +decide [List.cons_append]
  have h3 : "big".toList.isPrefixOf
      ('r' :: 'e' :: 'c' :: 'o' :: 'r' :: 't' :: 'e' :: [] ++ t : List Char) = false := by
    simp +decide [List.isPrefixOf]
  have h4 : "recorte".toList.isPrefixOf
      ('r' :: 'e' :: 'c' :: 'o' :: 'r' :: 't' :: 'e' :: [] ++ t : List Char) = true := by
    rw [hrec]
    exact isPrefixOf_append_self _ t
  simp [h1, h2, h3, h4]

/-- Claim C4 witness: a concrete caption in the amended theorem's
hypothesis class. -/
theorem c4_recorte_empty_params_witness :
    "recorte".toList.isPrefixOf (pyLower (pyStrip "  Recorte ya ".toList)) = true ∧
    classify "  Recorte ya ".toList = ⟨"recorte".toList, none⟩ :=
  ⟨by decide, c4_recorte_empty_params _ (by decide)⟩

/-- The edition loop started from any accumulator appends exactly the
successful results in order. -/
theorem generate_all_loop_foldl {α β ε : Type} (process : α → Except ε β)
    (eds : List α) (acc : List β) :
    eds.foldl
      (fun results ed =>
        match process ed with
        | Except.ok r => results ++ [r]
        | Except.error _ => results)
      acc = acc ++ eds.filterMap (fun e => (process e).toOption) := by
  induction eds generalizing acc with
  | nil => simp
  | cons e rest ih =>
    simp only [List.foldl_cons, List.filterMap_cons]
    cases hpe : process e with
    | ok r => simp [hpe, ih, Except.toOption]
    | error msg => simp [hpe, ih, Except.toOption]

/-- Claim C2: in generate_all_from_link, each edition failure is caught
and excluded while every other edition is still processed: the loop
returns exactly the successes, in order; in particular with three
editions of which exactly the second fails, exactly the two successful
results come back. -/
theorem c2_generate_all_partial_success {α β ε : Type} (process : α → Except ε β)
    (e1 e2 e3 : α) (r1 r3 : β) (msg : ε)
    (h1 : process e1 = Except.ok r1) (h2 : process e2 = Except.error msg)
    (h3 : process e3 = Except.ok r3) :
    generate_all_loop process [e1, e2, e3] = [r1, r3] ∧
    ∀ eds : List α,
      generate_all_loop process eds = eds.filterMap (fun e => (process e).toOption) := by
  have hall : ∀ eds : List α,
      generate_all_loop process eds = eds.filterMap (fun e => (process e).toOption) := by
    intro eds
    unfold generate_all_loop
    rw [generate_all_loop_foldl]
    simp
  refine ⟨?_, hall⟩
  rw [hall]
  simp [h1, h2, h3, Except.toOption]

/-- Claim C2 witness: a concrete three-edition batch whose second
edition fails. -/
theorem c2_generate_all_partial_success_witness :
    generate_all_loop
      (fun n : ℕ => if n = 2 then Except.error "boom".toList else Except.ok n)
      [1, 2, 3] = [1, 3] :=
  (c2_generate_all_partial_success
    (fun n : ℕ => if n = 2 then Except.error "boom".toList else Except.ok n)
    1 2 3 1 3 "boom".toList (by decide) (by decide) (by decide)).1

/-- Captions of the form big-space-T are classified as bigtext carrying
the trimmed tail T. -/
theorem classify_big_space (T : List Char) :
    classify ("big ".toList ++ T) = ⟨"bigtext".toList, some (pyStrip T)⟩ := by
  have hcap : ("big ".toList ++ T) = 'b' :: 'i' :: 'g' :: ' ' :: T := rfl
  rw [hcap]
  have hne : ('b' :: 'i' :: 'g' :: ' ' :: T : List Char) ≠ [] := by simp
  have hl : lstrip ('b' :: 'i' :: 'g' :: ' ' :: T) = 'b' :: 'i' :: 'g' :: ' ' :: T :=
    lstrip_cons_of_nonspace _ (by decide)
  have hstrip : pyStrip ('b' :: 'i' :: 'g' :: ' ' :: T) =
      if rstrip (' ' :: T) = [] then ['b', 'i', 'g']
      else ['b', 'i', 'g'] ++ rstrip (' ' :: T) := by
    unfold pyStrip
    rw [hl]
    rw [show ('b' :: 'i' :: 'g' :: ' ' :: T : List Char) = ['b', 'i', 'g'] ++ (' ' :: T) from rfl]
    rw [rstrip_append]
    rw [show rstrip ['b', 'i', 'g'] = ['b', 'i', 'g'] from by decide]
  have hrest : (splitFirstRest ('b' :: 'i' :: 'g' :: ' ' :: T)).2 = lstrip T := by
    simp +decide [splitFirstRest, lstrip, List.dropWhile_cons, List.takeWhile_cons]
  have hextra : (if lstrip T = [] then ([] : List Char) else pyStrip (lstrip T)) = pyStrip T := by
    by_cases hT : lstrip T = []
    · rw [if_pos hT]
      unfold pyStrip
      rw [hT]
      rfl
    · rw [if_neg hT]
      unfold pyStrip
      rw [lstrip_idem]
  unfold classify
  rw [if_neg hne]
  simp only [hstrip]
  by_cases hsp : rstrip (' ' :: T) = []
  · rw [if_pos hsp]
    simp +decide [hrest, hextra, pyLower]
  · rw [if_neg hsp]
    have hmap2 : pyLower ('b' :: 'i' :: 'g' :: rstrip (' ' :: T)) =
        'b' :: 'i' :: 'g' :: pyLower (rstrip (' ' :: T)) := by
      simp +decide [pyLower]
    simp +decide [hmap2, hrest, hextra, List.cons_prefix_cons]

/-- A single whitespace-free word whose lowercasing starts with big is
classified as bigtext with empty extracted text. -/
theorem classify_big_word (w : List Char) (hw : w ≠ [])
    (hns : ∀ c ∈ w, isSpaceChar c = false)
    (hpre : "big".toList.isPrefixOf (pyLower w) = true) :
    classify w = ⟨"bigtext".toList, some []⟩ := by
  have hstrip : pyStrip w = w := pyStrip_of_nospace w hns
  obtain ⟨t, ht⟩ := eq_append_of_isPrefixOf hpre
  have hrest : (splitFirstRest w).2 = [] := by
    have hl : w.dropWhile isSpaceChar = w := by
      cases w with
      | nil => rfl
      | cons c cs => simp [List.dropWhile_cons, hns c (by simp)]
    have hdw : w.dropWhile (fun d => !isSpaceChar d) = [] :=
      List.dropWhile_eq_nil_iff.mpr (fun x hx => by simp [hns x hx])
    simp [splitFirstRest, hl, hdw]
  unfold classify
  rw [if_neg hw]
  simp only [hstrip]
  simp +decide [ht, hrest, List.cons_prefix_cons]

/-- Claim C7: a caption big-space-T is classified as bigtext with
parameters.text the trimmed T; the bare caption big, and more generally
any single word starting (case-insensitively) with big, yields bigtext
with empty parameters.text. -/
theorem c7_bigtext_extraction :
    (∀ T : List Char,
      classify ("big ".toList ++ T) = ⟨"bigtext".toList, some (pyStrip T)⟩) ∧
    classify "big".toList = ⟨"bigtext".toList, some []⟩ ∧
    (∀ w : List Char, w ≠ [] → (∀ c ∈ w, isSpaceChar c = false) →
      "big".toList.isPrefixOf (pyLower w) = true →
      classify w = ⟨"bigtext".toList, some []⟩) :=
  ⟨classify_big_space, by decide, classify_big_word⟩

/-- Claim C7 witness: concrete captions for each part of the claim. -/
theorem c7_bigtext_extraction_witness :
    classify "big  Hola Mundo ".toList =
      ⟨"bigtext".toList, some (pyStrip " Hola Mundo ".toList)⟩ ∧
    classify "bigger".toList = ⟨"bigtext".toList, some []⟩ :=
  ⟨c7_bigtext_extraction.1 " Hola Mundo ".toList,
   c7_bigtext_extraction.2.2 "bigger".toList (by decide) (by decide) (by decide)⟩

/-- Claim C1: evaluating the embedded _apply_edition at the spec's
end-to-end scenario (2000 by 1000 base, mode recorte, requested output
1080 by 1350): the code composes the title directly on the base image,
so the canvas keeps the base size 2000 by 1000 and is not the claimed
1080 by 1350; crop_center_aspect is never called by _apply_edition and
output.width and output.height are never read. -/
theorem c1_recorte_edition_keeps_base_size :
    apply_edition ⟨2000, 1000, "RGB".toList⟩ ⟨some "recorte".toList⟩ =
      ⟨2000, 1000, "RGB".toList⟩ ∧
    ¬ ((apply_edition ⟨2000, 1000, "RGB".toList⟩ ⟨some "recorte".toList⟩).w = 1080 ∧
       (apply_edition ⟨2000, 1000, "RGB".toList⟩ ⟨some "recorte".toList⟩).h = 1350) := by
  decide

/-- A list is a Boolean suffix of anything followed by itself. -/
theorem isSuffixOf_append_self (t l : List Char) : l.isSuffixOf (t ++ l) = true := by
  unfold List.isSuffixOf
  rw [List.reverse_append]
  exact isPrefixOf_append_self _ _

/-- Claim C9 counterexample: an alpha-carrying image (mode RGBA) is
encoded as PNG yet the suggested filename still ends in .jpg, not in
the claimed .png. -/
theorem c9_counterexample :
    save_to_bytes_fmt "RGBA".toList "JPEG".toList = "PNG".toList ∧
    ".jpg".toList.isSuffixOf
      (media_filename "logo".toList "20250101-000000-000000-abcdef".toList) = true ∧
    ".png".toList.isSuffixOf
      (media_filename "logo".toList "20250101-000000-000000-abcdef".toList) = false := by
  decide

/-- Claim C9 amended: the suggested filename of a single-caption request
always has the form kind-timestamp-shortRandomSuffix.jpg with a fixed
jpg extension, even when the payload is PNG-encoded because the image
carries an alpha channel (mode RGBA or LA). -/
theorem c9_filename_ext_always_jpg (kind suffix hint : List Char) :
    media_filename kind suffix = kind ++ "-".toList ++ suffix ++ ".jpg".toList ∧
    ".jpg".toList.isSuffixOf (media_filename kind suffix) = true ∧
    save_to_bytes_fmt "RGBA".toList hint = "PNG".toList ∧
    save_to_bytes_fmt "LA".toList hint = "PNG".toList := by
  refine ⟨rfl, ?_, ?_, ?_⟩
  · unfold media_filename
    rw [show kind ++ "-".toList ++ suffix ++ ".jpg".toList =
        (kind ++ "-".toList ++ suffix) ++ ".jpg".toList by simp]
    exact isSuffixOf_append_self _ _
  · simp [save_to_bytes_fmt]
  · simp [save_to_bytes_fmt]

/-- Assigning a key makes lookup of that key return the new value. -/
theorem dictLookup_dictSet_self (d : List (List Char × PyVal)) (k : List Char) (v : PyVal) :
    dictLookup (dictSet d k v) k = some v := by
  induction d with
  | nil => simp [dictSet, dictLookup]
  | cons e rest ih =>
    obtain ⟨k1, v1⟩ := e
    by_cases h : k1 = k
    · simp [dictSet, dictLookup, h]
    · simp [dictSet, dictLookup, h, ih]

/-- Assigning one key leaves lookup of a different key unchanged. -/
theorem dictLookup_dictSet_ne (d : List (List Char × PyVal)) (k k1 : List Char) (v : PyVal)
    (h : k1 ≠ k) : dictLookup (dictSet d k1 v) k = dictLookup d k := by
  have h2 : ¬ (k1 = k) := h
  induction d with
  | nil => simp [dictSet, dictLookup, h2]
  | cons e rest ih =>
    obtain ⟨k2, v2⟩ := e
    by_cases h3 : k2 = k1
    · subst h3
      simp [dictSet, dictLookup, h2]
    · simp [dictSet, dictLookup, h3, ih]

/-- Lookup of an absent key gives none. -/
theorem dictLookup_eq_none (d : List (List Char × PyVal)) (k : List Char)
    (h : k ∉ d.map Prod.fst) : dictLookup d k = none := by
  induction d with
  | nil => rfl
  | cons e rest ih =>
    obtain ⟨k1, v1⟩ := e
    simp only [List.map_cons, List.mem_cons] at h
    push_neg at h
    have hne : ¬ (k1 = k) := fun hh => h.1 hh.symm
    simp [dictLookup, hne, ih h.2]

/-- One step of the merge rewrites to a dictSet with the merged value. -/
theorem merge_dict_cons (res : List (List Char × PyVal)) (k1 : List Char) (v1 : PyVal)
    (rest : List (List Char × PyVal)) :
    merge_dict res ((k1, v1) :: rest) =
      merge_dict (dictSet res k1 (mergedValue (dictLookup res k1) v1)) rest := by
  rw [merge_dict.eq_def]
  rcases v1 with n | d
  · cases hb : dictLookup res k1 with
    | none => simp [mergedValue, hb]
    | some bv => cases bv <;> simp [mergedValue, hb]
  · cases hb : dictLookup res k1 with
    | none => simp [mergedValue, hb]
    | some bv => cases bv <;> simp [mergedValue, hb]

/-- Key-by-key characterization of the merge, for any accumulator. -/
theorem merge_dict_lookup (o : List (List Char × PyVal)) :
    ∀ (res : List (List Char × PyVal)) (k : List Char),
    (o.map Prod.fst).Nodup →
    dictLookup (merge_dict res o) k =
      match dictLookup o k with
      | none => dictLookup res k
      | some v => some (mergedValue (dictLookup res k) v) := by
  induction o with
  | nil =>
    intro res k _
    simp [merge_dict, dictLookup]
  | cons e rest ih =>
    intro res k hnd
    obtain ⟨k1, v1⟩ := e
    simp only [List.map_cons, List.nodup_cons] at hnd
    obtain ⟨hk1, hrest⟩ := hnd
    rw [merge_dict_cons, ih _ k hrest]
    by_cases hk : k1 = k
    · subst hk
      have hlrest : dictLookup rest k1 = none := dictLookup_eq_none rest k1 hk1
      rw [hlrest]
      simp [dictLookup, dictLookup_dictSet_self]
    · have hlk : dictLookup ((k1, v1) :: rest) k = dictLookup rest k := by
        simp [dictLookup, hk]
      rw [hlk, dictLookup_dictSet_ne _ _ _ _ hk]

/-- Claim C8: in the layered-configuration merge (merge_dict of
config_loader.py and the identical _deep_merge of generate_image.py),
every override key wins over the base key, the merge recurses key by
key exactly when both values are mappings, a non-mapping override value
replaces the base value wholesale, and a key present only in the base
is preserved unchanged. -/
theorem c8_deep_merge_keywise (b o : List (List Char × PyVal)) (k : List Char)
    (ho : (o.map Prod.fst).Nodup) :
    dictLookup (merge_dict b o) k =
      match dictLookup o k with
      | none => dictLookup b k
      | some (PyVal.atom n) => some (PyVal.atom n)
      | some (PyVal.dict d) =>
        match dictLookup b k with
        | some (PyVal.dict bd) => some (PyVal.dict (merge_dict bd d))
        | _ => some (PyVal.dict d) := by
  rw [merge_dict_lookup o b k ho]
  cases ho2 : dictLookup o k with
  | none => rfl
  | some v =>
    cases v with
    | atom n =>
      cases hb : dictLookup b k with
      | none => simp [mergedValue]
      | some bv => cases bv <;> simp [mergedValue]
    | dict d =>
      cases hb : dictLookup b k with
      | none => simp [mergedValue]
      | some bv => cases bv <;> simp [mergedValue]

/-- Claim C8 witness: a concrete two-level merge showing the recursive
case, the wholesale case and base-key preservation at once. -/
theorem c8_deep_merge_keywise_witness :
    dictLookup
      (merge_dict
        [("a".toList, PyVal.dict [("x".toList, PyVal.atom 1), ("y".toList, PyVal.atom 2)]),
         ("c".toList, PyVal.atom 7)]
        [("a".toList, PyVal.dict [("x".toList, PyVal.atom 5)]), ("d".toList, PyVal.atom 9)])
      "a".toList =
      some (PyVal.dict
        (merge_dict [("x".toList, PyVal.atom 1), ("y".toList, PyVal.atom 2)]
          [("x".toList, PyVal.atom 5)])) := by
  rw [c8_deep_merge_keywise _ _ _ (by simp +decide)]
  simp +decide [dictLookup]

/-- ensure_rgba keeps the canvas width. -/
theorem ensure_rgba_w (img : Img) : (ensure_rgba img).w = img.w := by
  unfold ensure_rgba
  split <;> rfl

/-- ensure_rgba keeps the canvas height. -/
theorem ensure_rgba_h (img : Img) : (ensure_rgba img).h = img.h := by
  unfold ensure_rgba
  split <;> rfl

/-- ensure_rgb keeps the canvas width. -/
theorem ensure_rgb_w (img : Img) : (ensure_rgb img).w = img.w := by
  unfold ensure_rgb
  split <;> rfl

/-- ensure_rgb keeps the canvas height. -/
theorem ensure_rgb_h (img : Img) : (ensure_rgb img).h = img.h := by
  unfold ensure_rgb
  split <;> rfl

/-- Claim C10: whenever they succeed, logo.apply, watermark.apply and
big_text.apply return an image with exactly the base image's width and
height. -/
theorem c10_overlays_preserve_size :
    (∀ (img overlay : Img) (sr : ℚ) (pos : List Char) (m : ℤ) (out : Img),
      logo_apply img overlay sr pos m = Except.ok out →
      out.w = img.w ∧ out.h = img.h) ∧
    (∀ (base wm : Img) (tile : Bool) (sr : ℚ) (pos : List Char) (m : ℤ) (out : Img),
      watermark_apply base wm tile sr pos m = Except.ok out →
      out.w = base.w ∧ out.h = base.h) ∧
    (∀ (base : Img) (text : List Char),
      (big_text_apply base text).w = base.w ∧ (big_text_apply base text).h = base.h) := by
  refine ⟨?_, ?_, ?_⟩
  · intro img overlay sr pos m out h
    simp only [logo_apply, Img.alphaComposite] at h
    repeat' split at h
    all_goals simp [Except.map] at h
    all_goals rw [← h]
    all_goals simp [Img.copy, Img.convert, ensure_rgb_w, ensure_rgb_h, ensure_rgba_w,
      ensure_rgba_h]
  · intro base wm tile sr pos m out h
    simp only [watermark_apply, Img.alphaComposite] at h
    repeat' split at h
    all_goals simp [Except.map] at h
    all_goals rw [← h]
    all_goals simp [Img.copy, Img.convert]
  · intro base text
    exact ⟨rfl, rfl⟩

/-- Claim C10 witness: concrete successful logo and watermark runs (and
the always-total big-text run), with the theorem giving the size
preservation. -/
theorem c10_overlays_preserve_size_witness :
    logo_apply ⟨120, 80, "RGB".toList⟩ ⟨50, 25, "RGBA".toList⟩ ((1 : ℚ) / 5)
      "bottom-right".toList 4 = Except.ok ⟨120, 80, "RGB".toList⟩ ∧
    watermark_apply ⟨120, 80, "RGB".toList⟩ ⟨40, 20, "RGBA".toList⟩ true ((1 : ℚ) / 4)
      "center".toList 16 = Except.ok ⟨120, 80, "RGB".toList⟩ ∧
    (⟨120, 80, "RGB".toList⟩ : Img).w = 120 ∧ (⟨120, 80, "RGB".toList⟩ : Img).h = 80 := by
  have hlogo : logo_apply ⟨120, 80, "RGB".toList⟩ ⟨50, 25, "RGBA".toList⟩ ((1 : ℚ) / 5)
      "bottom-right".toList 4 = Except.ok ⟨120, 80, "RGB".toList⟩ := by
    norm_num [logo_apply, pyTrunc, pyFloorDiv, ensure_rgba, ensure_rgb, Img.convert,
      Img.resize, Img.copy, Img.alphaComposite, place_position, pyLower]
    decide
  have hwm : watermark_apply ⟨120, 80, "RGB".toList⟩ ⟨40, 20, "RGBA".toList⟩ true ((1 : ℚ) / 4)
      "center".toList 16 = Except.ok ⟨120, 80, "RGB".toList⟩ := by
    norm_num [watermark_apply, pyTrunc, pyFloorDiv, Img.convert, Img.resize, Img.copy,
      Img.alphaComposite]
  have hs := (c10_overlays_preserve_size.1 _ _ _ _ _ _ hlogo)
  exact ⟨hlogo, hwm, hs.1, hs.2⟩

/-- Claim C6: crop_center_aspect keeps the full height and takes a
centered width of int(h*r) when the image is wider than the target
ratio (and symmetrically keeps the full width with a centered height of
int(w/r) otherwise); the kept dimension is within one pixel of the
exact ratio and the two cut margins differ by at most one pixel. -/
theorem c6_crop_center_aspect (w h : ℕ) (m : List Char) (r : ℚ) (hw : 0 < w) (hh : 0 < h) (hr : 0 < r) :
    (r < (w : ℚ) / (h : ℚ) →
      (crop_center_aspect ⟨w, h, m⟩ r).h = h ∧
      ((crop_center_aspect ⟨w, h, m⟩ r).w : ℚ) ≤ (h : ℚ) * r ∧
      (h : ℚ) * r - 1 < ((crop_center_aspect ⟨w, h, m⟩ r).w : ℚ) ∧
      0 ≤ (crop_center_aspect_box ⟨w, h, m⟩ r).1 ∧
      (crop_center_aspect_box ⟨w, h, m⟩ r).2.2.1 ≤ (w : ℤ) ∧
      ((w : ℤ) - (crop_center_aspect_box ⟨w, h, m⟩ r).2.2.1) -
          (crop_center_aspect_box ⟨w, h, m⟩ r).1 ≤ 1 ∧
      (crop_center_aspect_box ⟨w, h, m⟩ r).1 ≤
          (w : ℤ) - (crop_center_aspect_box ⟨w, h, m⟩ r).2.2.1) ∧
    (¬ r < (w : ℚ) / (h : ℚ) →
      (crop_center_aspect ⟨w, h, m⟩ r).w = w ∧
      ((crop_center_aspect ⟨w, h, m⟩ r).h : ℚ) ≤ (w : ℚ) / r ∧
      (w : ℚ) / r - 1 < ((crop_center_aspect ⟨w, h, m⟩ r).h : ℚ) ∧
      0 ≤ (crop_center_aspect_box ⟨w, h, m⟩ r).2.1 ∧
      (crop_center_aspect_box ⟨w, h, m⟩ r).2.2.2 ≤ (h : ℤ) ∧
      ((h : ℤ) - (crop_center_aspect_box ⟨w, h, m⟩ r).2.2.2) -
          (crop_center_aspect_box ⟨w, h, m⟩ r).2.1 ≤ 1 ∧
      (crop_center_aspect_box ⟨w, h, m⟩ r).2.1 ≤
          (h : ℤ) - (crop_center_aspect_box ⟨w, h, m⟩ r).2.2.2) := by
  have hhq : (0 : ℚ) < (h : ℚ) := by exact_mod_cast hh
  have hwq : (0 : ℚ) < (w : ℚ) := by exact_mod_cast hw
  constructor
  · intro hcond
    have hcond2 : (w : ℚ) / (h : ℚ) > r := hcond
    have hpos : (0 : ℚ) ≤ (h : ℚ) * r := by positivity
    have htr : pyTrunc ((h : ℚ) * r) = ⌊(h : ℚ) * r⌋ := by
      unfold pyTrunc
      rw [if_pos hpos]
    have hnw0 : 0 ≤ ⌊(h : ℚ) * r⌋ := Int.floor_nonneg.mpr hpos
    have hlt : (h : ℚ) * r < (w : ℚ) := by
      have h2 : r * (h : ℚ) < (w : ℚ) := (lt_div_iff₀ hhq).mp hcond
      linarith
    have hnww : ⌊(h : ℚ) * r⌋ < (w : ℤ) := by
      have h3 : ((⌊(h : ℚ) * r⌋ : ℤ) : ℚ) ≤ (h : ℚ) * r := Int.floor_le _
      have h4 : ((⌊(h : ℚ) * r⌋ : ℤ) : ℚ) < (w : ℚ) := lt_of_le_of_lt h3 hlt
      exact_mod_cast h4
    have hbox : crop_center_aspect_box ⟨w, h, m⟩ r =
        (((w : ℤ) - ⌊(h : ℚ) * r⌋) / 2, 0,
         ((w : ℤ) - ⌊(h : ℚ) * r⌋) / 2 + ⌊(h : ℚ) * r⌋, (h : ℤ)) := by
      unfold crop_center_aspect_box pyFloorDiv
      rw [if_pos hcond2]
      have hfd : ∀ a : ℤ, a.fdiv 2 = a / 2 := fun a => Int.fdiv_eq_ediv a (by norm_num)
      simp only [htr, hfd]
    have hout : crop_center_aspect ⟨w, h, m⟩ r = ⟨(⌊(h : ℚ) * r⌋).toNat, h, m⟩ := by
      unfold crop_center_aspect Img.crop
      rw [hbox]
      simp
    have hcastw : (((⌊(h : ℚ) * r⌋).toNat : ℕ) : ℚ) = ((⌊(h : ℚ) * r⌋ : ℤ) : ℚ) := by
      exact_mod_cast Int.toNat_of_nonneg hnw0
    rw [hout, hbox]
    refine ⟨rfl, ?_, ?_, ?_, ?_, ?_, ?_⟩
    · simpa [hcastw] using (Int.floor_le ((h : ℚ) * r))
    · have := Int.sub_one_lt_floor ((h : ℚ) * r)
      simpa [hcastw] using this
    · dsimp only
      omega
    · dsimp only
      omega
    · dsimp only
      omega
    · dsimp only
      omega
  · intro hcond
    have hcond2 : ¬ ((w : ℚ) / (h : ℚ) > r) := hcond
    have hpos : (0 : ℚ) ≤ (w : ℚ) / r := by positivity
    have htr : pyTrunc ((w : ℚ) / r) = ⌊(w : ℚ) / r⌋ := by
      unfold pyTrunc
      rw [if_pos hpos]
    have hnh0 : 0 ≤ ⌊(w : ℚ) / r⌋ := Int.floor_nonneg.mpr hpos
    have hle : (w : ℚ) / r ≤ (h : ℚ) := by
      have h2 : (w : ℚ) / (h : ℚ) ≤ r := le_of_not_lt hcond2
      have h3 : (w : ℚ) ≤ r * (h : ℚ) := (div_le_iff₀ hhq).mp h2
      rw [div_le_iff₀ hr]
      linarith
    have hnhh : ⌊(w : ℚ) / r⌋ ≤ (h : ℤ) := by
      have h3 : ((⌊(w : ℚ) / r⌋ : ℤ) : ℚ) ≤ (w : ℚ) / r := Int.floor_le _
      have h4 : ((⌊(w : ℚ) / r⌋ : ℤ) : ℚ) ≤ (h : ℚ) := le_trans h3 hle
      exact_mod_cast h4
    have hbox : crop_center_aspect_box ⟨w, h, m⟩ r =
        (0, ((h : ℤ) - ⌊(w : ℚ) / r⌋) / 2, (w : ℤ),
         ((h : ℤ) - ⌊(w : ℚ) / r⌋) / 2 + ⌊(w : ℚ) / r⌋) := by
      unfold crop_center_aspect_box pyFloorDiv
      rw [if_neg hcond2]
      have hfd : ∀ a : ℤ, a.fdiv 2 = a / 2 := fun a => Int.fdiv_eq_ediv a (by norm_num)
      simp only [htr, hfd]
    have hout : crop_center_aspect ⟨w, h, m⟩ r = ⟨w, (⌊(w : ℚ) / r⌋).toNat, m⟩ := by
      unfold crop_center_aspect Img.crop
      rw [hbox]
      simp
    have hcasth : (((⌊(w : ℚ) / r⌋).toNat : ℕ) : ℚ) = ((⌊(w : ℚ) / r⌋ : ℤ) : ℚ) := by
      exact_mod_cast Int.toNat_of_nonneg hnh0
    rw [hout, hbox]
    refine ⟨rfl, ?_, ?_, ?_, ?_, ?_, ?_⟩
    · simpa [hcasth] using (Int.floor_le ((w : ℚ) / r))
    · have := Int.sub_one_lt_floor ((w : ℚ) / r)
      simpa [hcasth] using this
    · dsimp only
      omega
    · dsimp only
      omega
    · dsimp only
      omega
    · dsimp only
      omega

/-- Claim C6 witness: the spec scenario, a 2000 by 1000 image cropped to
ratio 1080/1350 = 0.8, keeping a centered 800 by 1000 region. -/
theorem c6_crop_center_aspect_witness :
    ((1080 : ℚ) / 1350 < ((2000 : ℕ) : ℚ) / ((1000 : ℕ) : ℚ)) ∧
    (crop_center_aspect ⟨2000, 1000, "RGB".toList⟩ ((1080 : ℚ) / 1350)).h = 1000 ∧
    (((crop_center_aspect ⟨2000, 1000, "RGB".toList⟩ ((1080 : ℚ) / 1350)).w : ℚ) ≤
      ((1000 : ℕ) : ℚ) * ((1080 : ℚ) / 1350)) ∧
    crop_center_aspect ⟨2000, 1000, "RGB".toList⟩ ((1080 : ℚ) / 1350) =
      ⟨800, 1000, "RGB".toList⟩ := by
  have happ := (c6_crop_center_aspect 2000 1000 "RGB".toList ((1080 : ℚ) / 1350)
    (by norm_num) (by norm_num) (by norm_num)).1 (by norm_num)
  refine ⟨by norm_num, happ.1, happ.2.1, ?_⟩
  norm_num [crop_center_aspect, crop_center_aspect_box, pyTrunc, pyFloorDiv, Img.crop]
  decide

/-- Invariants of the greedy wrap loop: the accumulated lines never
exceed max_lines - 1; a non-empty current line implies strictly fewer;
the current line always fits (or is empty); and every accumulated line
either fits within the width or is one of the input words (a forced
single-word overflow line). -/
theorem wrap_loop_spec (tw : List Char → ℤ) (maxW : ℤ) (maxLines : ℕ)
    (words lines : List (List Char)) (current : List Char) :
    (lines.length : ℤ) ≤ (maxLines : ℤ) - 1 →
    (current ≠ [] → (lines.length : ℤ) < (maxLines : ℤ) - 1) →
    (tw current ≤ maxW ∨ current = []) →
    (((wrap_loop tw maxW maxLines words lines current).1.length : ℤ) ≤ (maxLines : ℤ) - 1) ∧
    ((wrap_loop tw maxW maxLines words lines current).2.1 ≠ [] →
      ((wrap_loop tw maxW maxLines words lines current).1.length : ℤ) < (maxLines : ℤ) - 1) ∧
    (tw (wrap_loop tw maxW maxLines words lines current).2.1 ≤ maxW ∨
      (wrap_loop tw maxW maxLines words lines current).2.1 = []) ∧
    (∀ l ∈ (wrap_loop tw maxW maxLines words lines current).1,
      tw l ≤ maxW ∨ l ∈ words ∨ l ∈ lines) := by
  induction words, lines, current using wrap_loop.induct tw maxW maxLines
  case case1 lines current =>
    intro hlen hcur hc
    rw [wrap_loop]
    exact ⟨hlen, hcur, hc, fun l hl => Or.inr (Or.inr hl)⟩
  case case2 =>
    rename_i lines current w rest hguard test hfit ih
    intro hlen hcur hc
    have hfit2 : tw (if current = [] then w else pyStrip (current ++ ' ' :: w)) ≤ maxW := hfit
    have hres : wrap_loop tw maxW maxLines (w :: rest) lines current =
        wrap_loop tw maxW maxLines rest lines
          (if current = [] then w else pyStrip (current ++ ' ' :: w)) := by
      rw [wrap_loop]
      simp only [dif_pos hguard]
      rw [if_pos hfit2]
    rw [hres]
    have ihx := ih hlen (fun _ => hguard) (Or.inl hfit)
    refine ⟨ihx.1, ihx.2.1, ihx.2.2.1, ?_⟩
    intro l hl
    rcases ihx.2.2.2 l hl with h | h | h
    · exact Or.inl h
    · exact Or.inr (Or.inl (List.mem_cons_of_mem _ h))
    · exact Or.inr (Or.inr h)
  case case3 =>
    rename_i lines w rest hguard test hnofit ih
    intro hlen hcur hc
    have hnofit2 : ¬ tw w ≤ maxW := hnofit
    have hres : wrap_loop tw maxW maxLines (w :: rest) lines [] =
        wrap_loop tw maxW maxLines rest (lines ++ [w]) [] := by
      rw [wrap_loop]
      simp only [dif_pos hguard]
      simp [hnofit2]
    rw [hres]
    have hlen2 : ((lines ++ [w]).length : ℤ) ≤ (maxLines : ℤ) - 1 := by
      simp
      omega
    have ihx := ih hlen2 (fun hne => absurd rfl hne) (Or.inr rfl)
    refine ⟨ihx.1, ihx.2.1, ihx.2.2.1, ?_⟩
    intro l hl
    rcases ihx.2.2.2 l hl with h | h | h
    · exact Or.inl h
    · exact Or.inr (Or.inl (List.mem_cons_of_mem _ h))
    · rcases List.mem_append.mp h with h2 | h2
      · exact Or.inr (Or.inr h2)
      · have hlw : l = w := by simpa using h2
        exact Or.inr (Or.inl (hlw ▸ List.mem_cons_self _ _))
  case case4 =>
    rename_i lines current w rest hguard test hnofit hcur0 ih
    intro hlen hcur hc
    have hnofit2 : ¬ tw (if current = [] then w else pyStrip (current ++ ' ' :: w)) ≤ maxW :=
      hnofit
    have hnofit3 : ¬ tw (pyStrip (current ++ ' ' :: w)) ≤ maxW := by
      simpa [hcur0] using hnofit2
    have hres : wrap_loop tw maxW maxLines (w :: rest) lines current =
        wrap_loop tw maxW maxLines (w :: rest) (lines ++ [current]) [] := by
      rw [wrap_loop]
      simp only [dif_pos hguard]
      simp [hnofit3, hcur0]
    rw [hres]
    have hcw : tw current ≤ maxW := hc.resolve_right hcur0
    have hlen2 : ((lines ++ [current]).length : ℤ) ≤ (maxLines : ℤ) - 1 := by
      simp
      omega
    have ihx := ih hlen2 (fun hne => absurd rfl hne) (Or.inr rfl)
    refine ⟨ihx.1, ihx.2.1, ihx.2.2.1, ?_⟩
    intro l hl
    rcases ihx.2.2.2 l hl with h | h | h
    · exact Or.inl h
    · exact Or.inr (Or.inl h)
    · rcases List.mem_append.mp h with h2 | h2
      · exact Or.inr (Or.inr h2)
      · have hlc : l = current := by simpa using h2
        exact Or.inl (hlc ▸ hcw)
  case case5 =>
    rename_i lines current w rest hguard
    intro hlen hcur hc
    have hres : wrap_loop tw maxW maxLines (w :: rest) lines current =
        (lines, current, w :: rest) := by
      rw [wrap_loop]
      simp only [dif_neg hguard]
    rw [hres]
    exact ⟨hlen, hcur, hc, fun l hl => Or.inr (Or.inr hl)⟩

/-- Measured width is additive over concatenation. -/
theorem textWidth_append (cw : Char → ℤ) (t : ℤ) (a b : List Char) :
    textWidth cw t (a ++ b) = textWidth cw t a + textWidth cw t b := by
  simp [textWidth]

/-- The ellipsis marker always measures at least three pixels (each
character has a one-pixel floor). -/
theorem three_le_textWidth_ellipsis (cw : Char → ℤ) (t : ℤ) :
    3 ≤ textWidth cw t "...".toList := by
  have h1 : 1 ≤ max (cw '.' + t) 1 := le_max_right _ _
  have hd : textWidth cw t "...".toList =
      max (cw '.' + t) 1 + (max (cw '.' + t) 1 + max (cw '.' + t) 1) := by
    simp +decide [textWidth]
  rw [hd]
  linarith

/-- The ellipsis truncation returns a line that fits, provided the bare
ellipsis itself fits. -/
theorem truncate_line_le (cw : Char → ℤ) (t maxW : ℤ) (remaining : List (List Char))
    (h2 : textWidth cw t "...".toList ≤ maxW) :
    ∀ i : ℕ,
    (i = 0 ∨ textWidth cw t (List.intercalate [' '] (remaining.take i) ++ "...".toList) ≤ maxW) →
    textWidth cw t (truncate_line (textWidth cw t) maxW remaining i) ≤ maxW := by
  intro i
  induction i using truncate_line.induct (textWidth cw t) maxW remaining
  case case1 i hlt cand hcand =>
    intro hi
    rw [truncate_line]
    rw [dif_pos hlt, if_pos hcand]
    rcases hi with hi | hi
    · subst hi
      simpa using h2
    · exact hi
  case case2 i hlt cand hcand ih =>
    intro _
    rw [truncate_line]
    rw [dif_pos hlt, if_neg hcand]
    exact ih (Or.inr (not_lt.mp hcand))
  case case3 i hge =>
    intro hi
    rw [truncate_line]
    rw [dif_neg hge]
    rcases hi with hi | hi
    · subst hi
      have hnil : remaining = [] := by
        have := Nat.eq_zero_of_not_pos hge
        exact List.eq_nil_of_length_eq_zero this
      subst hnil
      have h3 := three_le_textWidth_ellipsis cw t
      have : textWidth cw t (List.intercalate [' '] ([] : List (List Char))) = 0 := by
        simp [List.intercalate, textWidth]
      rw [this]
      linarith
    · have htake : remaining.take i = remaining := List.take_of_length_le (Nat.le_of_not_lt hge)
      rw [htake] at hi
      rw [textWidth_append] at hi
      have h3 := three_le_textWidth_ellipsis cw t
      linarith

/-- The final-slot handling of get_title_lines adds at most one line,
for any width limit whatsoever. -/
theorem wrap_postlude_length (cw : Char → ℤ) (tracking maxW : ℤ) (maxLines : ℕ)
    (lines1 R : List (List Char))
    (hlen1 : (lines1.length : ℤ) ≤ (maxLines : ℤ) - 1) :
    (if (lines1.length : ℤ) = (maxLines : ℤ) - 1 then
        if textWidth cw tracking (List.intercalate [' '] R) ≤ maxW then
          lines1 ++ [List.intercalate [' '] R]
        else lines1 ++ [truncate_line (textWidth cw tracking) maxW R 0]
      else if lines1.length < maxLines then lines1 ++ [[]]
      else lines1).length ≤ maxLines := by
  split
  · split
    · simp
      omega
    · simp
      omega
  · split
    · simp
      omega
    · omega

/-- The final-slot handling of get_title_lines preserves the width and
membership bound, provided the bare ellipsis marker fits. -/
theorem wrap_postlude_mem (cw : Char → ℤ) (tracking maxW : ℤ) (maxLines : ℕ)
    (words lines1 R : List (List Char))
    (h2 : textWidth cw tracking "...".toList ≤ maxW) (h0 : (0 : ℤ) ≤ maxW)
    (hmem : ∀ l ∈ lines1, maxW < textWidth cw tracking l → l ∈ words) :
    ∀ l ∈ (if (lines1.length : ℤ) = (maxLines : ℤ) - 1 then
        if textWidth cw tracking (List.intercalate [' '] R) ≤ maxW then
          lines1 ++ [List.intercalate [' '] R]
        else lines1 ++ [truncate_line (textWidth cw tracking) maxW R 0]
      else if lines1.length < maxLines then lines1 ++ [[]]
      else lines1),
      maxW < textWidth cw tracking l → l ∈ words := by
  split
  · split
    · rename_i hfits
      intro l hl hlt
      rcases List.mem_append.mp hl with h | h
      · exact hmem l h hlt
      · have hle : l = List.intercalate [' '] R := by simpa using h
        exact absurd hlt (not_lt.mpr (hle ▸ hfits))
    · intro l hl hlt
      rcases List.mem_append.mp hl with h | h
      · exact hmem l h hlt
      · have hlt2 : l = truncate_line (textWidth cw tracking) maxW R 0 := by simpa using h
        have hok := truncate_line_le cw tracking maxW R h2 0 (Or.inl rfl)
        exact absurd hlt (not_lt.mpr (hlt2 ▸ hok))
  · split
    · intro l hl hlt
      rcases List.mem_append.mp hl with h | h
      · exact hmem l h hlt
      · have hnil : l = [] := by simpa using h
        have hz : textWidth cw tracking l = 0 := by rw [hnil]; rfl
        rw [hz] at hlt
        exact absurd hlt (not_lt.mpr h0)
    · exact hmem

/-- Claim C3 amended: for every glyph-metrics function, tracking delta,
maxWidthPx and maxLines at least 1, get_title_lines returns at most
maxLines lines; and provided additionally the measured width of the
ellipsis marker does not exceed maxWidthPx (the width part of the claim
fails without this proviso, see the counterexample), every returned
line whose measured width exceeds maxWidthPx is a single word of the
title that alone exceeds the width. -/
theorem c3_title_lines_width_bound (cw : Char → ℤ) (tracking : ℤ) (title : List Char)
    (maxW : ℤ) (maxLines : ℕ) (h1 : 1 ≤ maxLines) :
    (get_title_lines cw tracking title maxW maxLines).length ≤ maxLines ∧
    (textWidth cw tracking "...".toList ≤ maxW →
      ∀ l ∈ get_title_lines cw tracking title maxW maxLines,
        maxW < textWidth cw tracking l → l ∈ pySplit (pyUpper title)) := by
  rcases hEq : wrap_loop (textWidth cw tracking) maxW maxLines (pySplit (pyUpper title)) [] []
    with ⟨L, C, R⟩
  have spec := wrap_loop_spec (textWidth cw tracking) maxW maxLines
    (pySplit (pyUpper title)) [] []
    (by simp; omega) (fun hne => absurd rfl hne) (Or.inr rfl)
  rw [hEq] at spec
  obtain ⟨A, B, Cfact, D⟩ := spec
  dsimp only at A B Cfact
  simp only [List.not_mem_nil, or_false] at D
  have hg : get_title_lines cw tracking title maxW maxLines =
      (if ((if C = [] then L else L ++ [C]).length : ℤ) = (maxLines : ℤ) - 1 then
        if textWidth cw tracking (List.intercalate [' '] R) ≤ maxW then
          (if C = [] then L else L ++ [C]) ++ [List.intercalate [' '] R]
        else (if C = [] then L else L ++ [C]) ++ [truncate_line (textWidth cw tracking) maxW R 0]
      else if (if C = [] then L else L ++ [C]).length < maxLines then
        (if C = [] then L else L ++ [C]) ++ [[]]
      else (if C = [] then L else L ++ [C])) := by
    unfold get_title_lines
    dsimp only
    rw [hEq]
  have hlen1 : (((if C = [] then L else L ++ [C]).length : ℤ)) ≤ (maxLines : ℤ) - 1 := by
    by_cases hC : C = []
    · simp [hC]
      omega
    · have hB := B hC
      simp [hC]
      omega
  have hmem : ∀ l ∈ (if C = [] then L else L ++ [C]),
      maxW < textWidth cw tracking l → l ∈ pySplit (pyUpper title) := by
    intro l hl hlt
    by_cases hC : C = []
    · rw [if_pos hC] at hl
      rcases D l hl with h | h
      · exact absurd hlt (not_lt.mpr h)
      · exact h
    · rw [if_neg hC] at hl
      rcases List.mem_append.mp hl with h | h
      · rcases D l h with h4 | h4
        · exact absurd hlt (not_lt.mpr h4)
        · exact h4
      · have hlc : l = C := by simpa using h
        rcases Cfact with h4 | h4
        · exact absurd hlt (not_lt.mpr (hlc ▸ h4))
        · exact absurd (hlc ▸ h4) hC
  rw [hg]
  constructor
  · exact wrap_postlude_length cw tracking maxW maxLines
      (if C = [] then L else L ++ [C]) R hlen1
  · intro h2
    have h3 := three_le_textWidth_ellipsis cw tracking
    have h0 : (0 : ℤ) ≤ maxW := by linarith
    exact wrap_postlude_mem cw tracking maxW maxLines (pySplit (pyUpper title))
      (if C = [] then L else L ++ [C]) R h2 h0 hmem

/-- Claim C5 amended: when the greedy loop consumes all words, the
result is the packed lines (with the flushed current line) followed by
exactly ONE trailing empty line - not padded up to maxLines; the result
reaches maxLines entries only when the packing produced maxLines - 1
lines. -/
theorem c5_title_lines_single_pad (cw : Char → ℤ) (tracking : ℤ) (title : List Char)
    (maxW : ℤ) (maxLines : ℕ) (h1 : 1 ≤ maxLines) (h0 : (0 : ℤ) ≤ maxW)
    (hrem : (wrap_loop (textWidth cw tracking) maxW maxLines
      (pySplit (pyUpper title)) [] []).2.2 = []) :
    get_title_lines cw tracking title maxW maxLines =
      (if (wrap_loop (textWidth cw tracking) maxW maxLines
            (pySplit (pyUpper title)) [] []).2.1 = [] then
        (wrap_loop (textWidth cw tracking) maxW maxLines (pySplit (pyUpper title)) [] []).1
      else
        (wrap_loop (textWidth cw tracking) maxW maxLines (pySplit (pyUpper title)) [] []).1 ++
          [(wrap_loop (textWidth cw tracking) maxW maxLines
            (pySplit (pyUpper title)) [] []).2.1]) ++ [[]] := by
  rcases hEq : wrap_loop (textWidth cw tracking) maxW maxLines (pySplit (pyUpper title)) [] []
    with ⟨L, C, R⟩
  have spec := wrap_loop_spec (textWidth cw tracking) maxW maxLines
    (pySplit (pyUpper title)) [] []
    (by simp; omega) (fun hne => absurd rfl hne) (Or.inr rfl)
  rw [hEq] at spec hrem
  dsimp only at hrem
  subst hrem
  obtain ⟨A, B, _, _⟩ := spec
  dsimp only at A B
  have hg : get_title_lines cw tracking title maxW maxLines =
      (if ((if C = [] then L else L ++ [C]).length : ℤ) = (maxLines : ℤ) - 1 then
        if textWidth cw tracking (List.intercalate [' '] ([] : List (List Char))) ≤ maxW then
          (if C = [] then L else L ++ [C]) ++ [List.intercalate [' '] ([] : List (List Char))]
        else (if C = [] then L else L ++ [C]) ++
          [truncate_line (textWidth cw tracking) maxW [] 0]
      else if (if C = [] then L else L ++ [C]).length < maxLines then
        (if C = [] then L else L ++ [C]) ++ [[]]
      else (if C = [] then L else L ++ [C])) := by
    unfold get_title_lines
    dsimp only
    rw [hEq]
  have hlen1 : (((if C = [] then L else L ++ [C]).length : ℤ)) ≤ (maxLines : ℤ) - 1 := by
    by_cases hC : C = []
    · simp [hC]
      omega
    · have hB := B hC
      simp [hC]
      omega
  rw [hg]
  dsimp only
  have hic : List.intercalate [' '] ([] : List (List Char)) = [] := by simp [List.intercalate]
  generalize hL1 : (if C = [] then L else L ++ [C]) = L1 at hlen1 ⊢
  split
  · rename_i heq1
    rw [hic]
    rw [if_pos (by simpa [textWidth] using h0)]
  · rename_i hne1
    rw [if_pos (by omega)]

/-- Claim C3 counterexample: with unit glyph advances, title AB, width
limit 1 and a single line slot, the returned line is the bare ellipsis,
which measures 3 > 1 and is not a word of the title - an overflowing
line that is not a forced single-word line. -/
theorem c3_counterexample :
    get_title_lines (fun _ => (1 : ℤ)) 0 "AB".toList 1 1 = ["...".toList] ∧
    1 < textWidth (fun _ => (1 : ℤ)) 0 "...".toList ∧
    "...".toList ∉ pySplit (pyUpper "AB".toList) := by
  refine ⟨?_, by decide, ?_⟩
  · simp +decide [get_title_lines, wrap_loop, truncate_line, pySplit, pyUpper, textWidth]
  · have hs : pySplit (pyUpper "AB".toList) = [['A', 'B']] := by
      simp +decide [pySplit, pyUpper]
    rw [hs]
    decide

/-- Claim C3 witness: unit metrics, title HELLO WORLD, width 20, three
line slots. -/
theorem c3_title_lines_width_bound_witness :
    1 ≤ 3 ∧ textWidth (fun _ => (1 : ℤ)) 0 "...".toList ≤ 20 ∧
    ((get_title_lines (fun _ => (1 : ℤ)) 0 "HELLO WORLD".toList 20 3).length ≤ 3 ∧
      ∀ l ∈ get_title_lines (fun _ => (1 : ℤ)) 0 "HELLO WORLD".toList 20 3,
        20 < textWidth (fun _ => (1 : ℤ)) 0 l → l ∈ pySplit (pyUpper "HELLO WORLD".toList)) :=
  ⟨by norm_num, by decide,
    (c3_title_lines_width_bound (fun _ => (1 : ℤ)) 0 "HELLO WORLD".toList 20 3
      (by norm_num)).1,
    (c3_title_lines_width_bound (fun _ => (1 : ℤ)) 0 "HELLO WORLD".toList 20 3
      (by norm_num)).2 (by decide)⟩

/-- Claim C5 counterexample: unit metrics, title A, width 10, three line
slots: the greedy loop consumes every word, yet the result has 2 entries
(the packed line plus a single empty pad line), not the claimed exactly
3 entries. -/
theorem c5_counterexample :
    get_title_lines (fun _ => (1 : ℤ)) 0 "A".toList 10 3 = [['A'], []] ∧
    (get_title_lines (fun _ => (1 : ℤ)) 0 "A".toList 10 3).length = 2 ∧
    (wrap_loop (textWidth (fun _ => (1 : ℤ)) 0) 10 3
      (pySplit (pyUpper "A".toList)) [] []).2.2 = [] := by
  refine ⟨?_, ?_, ?_⟩
  · simp +decide [get_title_lines, wrap_loop, truncate_line, pySplit, pyUpper, textWidth]
  · simp +decide [get_title_lines, wrap_loop, truncate_line, pySplit, pyUpper, textWidth]
  · simp +decide [wrap_loop, pySplit, pyUpper, textWidth]

/-- Claim C5 witness: the same concrete run through the amended
theorem. -/
theorem c5_title_lines_single_pad_witness :
    (wrap_loop (textWidth (fun _ => (1 : ℤ)) 0) 10 3
      (pySplit (pyUpper "A".toList)) [] []).2.2 = [] ∧
    get_title_lines (fun _ => (1 : ℤ)) 0 "A".toList 10 3 =
      (if (wrap_loop (textWidth (fun _ => (1 : ℤ)) 0) 10 3
            (pySplit (pyUpper "A".toList)) [] []).2.1 = [] then
        (wrap_loop (textWidth (fun _ => (1 : ℤ)) 0) 10 3
          (pySplit (pyUpper "A".toList)) [] []).1
      else
        (wrap_loop (textWidth (fun _ => (1 : ℤ)) 0) 10 3
          (pySplit (pyUpper "A".toList)) [] []).1 ++
          [(wrap_loop (textWidth (fun _ => (1 : ℤ)) 0) 10 3
            (pySplit (pyUpper "A".toList)) [] []).2.1]) ++ [[]] :=
  ⟨by simp +decide [wrap_loop, pySplit, pyUpper, textWidth],
    c5_title_lines_single_pad (fun _ => (1 : ℤ)) 0 "A".toList 10 3 (by norm_num) (by norm_num)
      (by simp +decide [wrap_loop, pySplit, pyUpper, textWidth])⟩
